import Mathlib

/-!
# Verification of the chunked parallel gene-prediction pipeline

Shallow embedding of the two pipeline modules of the repository
(`src/cat/augustus_cgp.py`, the alignment / AugustusCGP mode, and
`src/cat/augustus_pb.py`, the single-genome / AugustusPB mode), together with
proofs about the chunk planner, the hint slicer, the chunk merger and the
parent-assignment wiring.

File contents are modelled as `List String` (one entry per line); genomic
coordinates as `Nat`; the external binaries (`joingenes`, `gtfToGenePred`,
`genePredToGtf`, `augustus`, `grep`) are opaque function parameters, exactly as
the spec treats them.  The `sed` substitutions, the interval arithmetic, the
awk hint filter and the concatenation loops are translated from the Python
source line by line.
-/

/-! ## Chunk planner

Both modes plan chunks with
`for start in xrange(0, chrom_size, args.chunksize - args.overlap)`.
`numStarts` and `rangeStarts` give the list produced by Python's
`xrange(0, L, step)` for a positive `step`: the starts `k * step < L`.
-/

/-- Number of values of `xrange(0, L, step)` for positive `step`:
`⌈L / step⌉`. -/
def numStarts (L step : Nat) : Nat := (L + step - 1) / step

/-- The list `xrange(0, L, step)` for positive `step`. -/
def rangeStarts (L step : Nat) : List Nat :=
  (List.range (numStarts L step)).map (fun k => k * step)

/-- Errors the planner can raise.  `valueError` models Python's
`ValueError` from `xrange` when the step `chunksize - overlap` is zero.
`configurationError` models the spec's `ConfigurationError`; the source
never raises it (nothing in either `setup` validates the parameters). -/
inductive PlanError
  | valueError
  | configurationError
deriving DecidableEq, Repr

/-- Python 2 `xrange(0, stop, step)` with an `Int` step: raises `ValueError`
for step 0, is empty for a negative step (counting down from 0 never reaches
a positive stop), and is `rangeStarts` for a positive step. -/
def xrangeFrom0 (stop : Nat) (step : Int) : Except PlanError (List Nat) :=
  if step = 0 then Except.error PlanError.valueError
  else if step < 0 then Except.ok []
  else Except.ok (rangeStarts stop step.toNat)

/-- One generated AugustusPB interval (`augustus_pb.py:63-65`):
`[start, min(start + chunksize, chrom_size)]`, stored as (start, stop). -/
def pbIv (L cs ov k : Nat) : Nat × Nat :=
  (k * (cs - ov), min (k * (cs - ov) + cs) L)

/-- The interval list AugustusPB generates for one sequence of length `L`
(`augustus_pb.py:63-65`), before the trailing merge. -/
def pbGenList (L cs ov : Nat) : List (Nat × Nat) :=
  (rangeStarts L (cs - ov)).map (fun s => (s, min (s + cs) L))

/-- The trailing-merge step of `augustus_pb.setup` (`augustus_pb.py:67-73`):
if the list has ≥ 2 intervals and the last interval's length is at most
`0.5 * chunksize` (`2 * len ≤ chunksize` over the integers), delete the last
interval and set the new last interval's stop to the deleted interval's stop. -/
def trailingMerge (cs : Nat) (l : List (Nat × Nat)) : List (Nat × Nat) :=
  match l.reverse with
  | (lastS, lastE) :: (prevS, _) :: rest =>
      if 2 * (lastE - lastS) ≤ cs then ((prevS, lastE) :: rest).reverse else l
  | _ => l

/-- The full AugustusPB chunk plan for one sequence (generation plus
trailing merge), for valid parameters `overlap < chunksize`. -/
def pbPlanList (L cs ov : Nat) : List (Nat × Nat) :=
  trailingMerge cs (pbGenList L cs ov)

/-- One generated AugustusCGP interval (`augustus_cgp.py:91-92`): the pair
(start, chunksize) with `chunksize = args.chunksize if start + args.chunksize
<= chrom_size else chrom_size - start`; stored as (start, length). -/
def cgpIv (L cs ov k : Nat) : Nat × Nat :=
  (k * (cs - ov), if k * (cs - ov) + cs ≤ L then cs else L - k * (cs - ov))

/-- The AugustusCGP chunk plan for one sequence (`augustus_cgp.py:89-92`);
the CGP `setup` has no trailing-merge step. -/
def cgpPlanList (L cs ov : Nat) : List (Nat × Nat) :=
  (rangeStarts L (cs - ov)).map (fun s => (s, if s + cs ≤ L then cs else L - s))

/-- The AugustusPB planner for arbitrary (also invalid) parameters, with the
`xrange` error behaviour made explicit. -/
def pbPlanChecked (L cs ov : Nat) : Except PlanError (List (Nat × Nat)) :=
  (xrangeFrom0 L ((cs : Int) - (ov : Int))).map
    (fun starts => trailingMerge cs (starts.map (fun s => (s, min (s + cs) L))))

/-- The AugustusCGP planner for arbitrary (also invalid) parameters. -/
def cgpPlanChecked (L cs ov : Nat) : Except PlanError (List (Nat × Nat)) :=
  (xrangeFrom0 L ((cs : Int) - (ov : Int))).map
    (fun starts => starts.map (fun s => (s, if s + cs ≤ L then cs else L - s)))

/-! ### Planner lemmas -/

theorem numStarts_lt_iff {L step k : Nat} (hs : 0 < step) :
    k < numStarts L step ↔ k * step < L := by
  unfold numStarts
  rw [show k < (L + step - 1) / step ↔ k + 1 ≤ (L + step - 1) / step from Iff.rfl,
      Nat.le_div_iff_mul_le hs, Nat.succ_mul]
  omega

theorem numStarts_eq_one {L step : Nat} (hL : 0 < L) (hls : L ≤ step) :
    numStarts L step = 1 := by
  have hs : 0 < step := lt_of_lt_of_le hL hls
  have h0 : 0 < numStarts L step := by
    rw [numStarts_lt_iff hs]; simpa using hL
  have h1 : ¬ 1 < numStarts L step := by
    rw [numStarts_lt_iff hs]; omega
  omega

theorem pbGenList_eq_map (L cs ov : Nat) :
    pbGenList L cs ov = (List.range (numStarts L (cs - ov))).map (pbIv L cs ov) := by
  simp [pbGenList, rangeStarts, List.map_map, pbIv, Function.comp]

theorem cgpPlanList_eq_map (L cs ov : Nat) :
    cgpPlanList L cs ov = (List.range (numStarts L (cs - ov))).map (cgpIv L cs ov) := by
  simp [cgpPlanList, rangeStarts, List.map_map, cgpIv, Function.comp]

theorem length_pbGenList (L cs ov : Nat) :
    (pbGenList L cs ov).length = numStarts L (cs - ov) := by
  simp [pbGenList_eq_map]

theorem trailingMerge_append (cs : Nat) (xs : List (Nat × Nat)) (p q : Nat × Nat) :
    trailingMerge cs (xs ++ [p, q]) =
      if 2 * (q.2 - q.1) ≤ cs then xs ++ [(p.1, q.2)] else xs ++ [p, q] := by
  obtain ⟨ps, pe⟩ := p
  obtain ⟨qs, qe⟩ := q
  simp [trailingMerge]

theorem trailingMerge_short (cs : Nat) (l : List (Nat × Nat)) (h : l.length ≤ 1) :
    trailingMerge cs l = l := by
  match l, h with
  | [], _ => rfl
  | [(x, y)], _ => simp [trailingMerge]

theorem range_add_two (m : Nat) : List.range (m + 2) = List.range m ++ [m, m + 1] := by
  rw [List.range_succ, List.range_succ]
  simp

theorem pbGenList_decomp {L cs ov m : Nat} (hn : numStarts L (cs - ov) = m + 2) :
    pbGenList L cs ov =
      (List.range m).map (pbIv L cs ov) ++ [pbIv L cs ov m, pbIv L cs ov (m + 1)] := by
  rw [pbGenList_eq_map, hn, range_add_two]
  simp

/-- For a nonempty plan the last generated interval always ends at `L`. -/
theorem last_stop_eq {L cs ov k : Nat} (hcs : ov < cs)
    (hk : numStarts L (cs - ov) = k + 1) :
    min (k * (cs - ov) + cs) L = L := by
  have hs : 0 < cs - ov := by omega
  have hnot : ¬ (k + 1) * (cs - ov) < L := by
    rw [← numStarts_lt_iff hs, hk]; omega
  have : L ≤ k * (cs - ov) + cs := by
    have h1 : (k + 1) * (cs - ov) = k * (cs - ov) + (cs - ov) := by ring
    omega
  omega

/-- Case analysis on the AugustusPB plan: either the trailing merge did not
fire (the plan is the generated list), or the start count is `m + 2`, the
merge condition held, and the plan is the first `m` generated intervals
followed by the widened interval `(m * step, L)`. -/
theorem pbPlanList_cases (L cs ov : Nat) (hcs : ov < cs) :
    pbPlanList L cs ov = pbGenList L cs ov ∨
    ∃ m, numStarts L (cs - ov) = m + 2 ∧
      2 * (L - (m + 1) * (cs - ov)) ≤ cs ∧
      pbPlanList L cs ov =
        (List.range m).map (pbIv L cs ov) ++ [(m * (cs - ov), L)] := by
  rcases hn : numStarts L (cs - ov) with _ | k
  · left
    unfold pbPlanList
    rw [trailingMerge_short]
    rw [length_pbGenList, hn]
    omega
  · rcases k with _ | m
    · left
      unfold pbPlanList
      rw [trailingMerge_short]
      rw [length_pbGenList, hn]
    · have hn2 : numStarts L (cs - ov) = m + 2 := by omega
      have hdec := pbGenList_decomp hn2
      have hlast : min ((m + 1) * (cs - ov) + cs) L = L :=
        last_stop_eq hcs (by omega)
      by_cases hc : 2 * (L - (m + 1) * (cs - ov)) ≤ cs
      · right
        refine ⟨m, by omega, hc, ?_⟩
        unfold pbPlanList
        rw [hdec, trailingMerge_append]
        have hq2 : (pbIv L cs ov (m + 1)).2 = L := by
          simp [pbIv, hlast]
        have hq1 : (pbIv L cs ov (m + 1)).1 = (m + 1) * (cs - ov) := rfl
        rw [if_pos, hq2]
        · rfl
        · rw [hq2, hq1]; exact hc
      · left
        unfold pbPlanList
        rw [hdec, trailingMerge_append, if_neg]
        rw [show (pbIv L cs ov (m + 1)).2 = L by simp [pbIv, hlast]]
        exact hc

theorem pbGen_get (L cs ov i : Nat) (h : i < (pbGenList L cs ov).length) :
    (pbGenList L cs ov).get ⟨i, h⟩ = pbIv L cs ov i := by
  simp [pbGenList, rangeStarts, List.get_eq_getElem, pbIv]

theorem cgpPlan_get (L cs ov i : Nat) (h : i < (cgpPlanList L cs ov).length) :
    (cgpPlanList L cs ov).get ⟨i, h⟩ = cgpIv L cs ov i := by
  simp [cgpPlanList, rangeStarts, List.get_eq_getElem, cgpIv]

theorem mem_map_range {α : Type} {f : Nat → α} {n : Nat} {x : α}
    (hx : x ∈ (List.range n).map f) : ∃ k, k < n ∧ x = f k := by
  obtain ⟨k, hk, rfl⟩ := List.mem_map.1 hx
  exact ⟨k, List.mem_range.1 hk, rfl⟩

/-- The position `p` is covered by the generated interval number `p / step`. -/
theorem div_step_covers (p s : Nat) (hs : 0 < s) :
    p / s * s ≤ p ∧ p < (p / s + 1) * s := by
  refine ⟨Nat.div_mul_le_self p s, ?_⟩
  have ha := Nat.div_add_mod p s
  have hb := Nat.mod_lt p hs
  have hc : (p / s + 1) * s = p / s * s + s := Nat.succ_mul _ _
  have hd : s * (p / s) = p / s * s := Nat.mul_comm _ _
  omega

/-- Coverage of the AugustusPB plan: every position of `[0, L)` lies in some
planned interval, also after the trailing merge. -/
theorem pb_coverage (L cs ov : Nat) (hov : 0 < ov) (hcs : ov < cs)
    (p : Nat) (hp : p < L) :
    ∃ iv ∈ pbPlanList L cs ov, iv.1 ≤ p ∧ p < iv.2 := by
  have hs : 0 < cs - ov := by omega
  obtain ⟨h1, h2⟩ := div_step_covers p (cs - ov) hs
  have hmul : (p / (cs - ov) + 1) * (cs - ov) = p / (cs - ov) * (cs - ov) + (cs - ov) :=
    Nat.succ_mul _ _
  have hk0lt : p / (cs - ov) < numStarts L (cs - ov) := by
    rw [numStarts_lt_iff hs]; omega
  have hbounds : (pbIv L cs ov (p / (cs - ov))).1 ≤ p ∧ p < (pbIv L cs ov (p / (cs - ov))).2 := by
    constructor
    · simpa [pbIv] using h1
    · simp only [pbIv]
      omega
  rcases pbPlanList_cases L cs ov hcs with hplan | ⟨m, hn, hc, hplan⟩
  · refine ⟨pbIv L cs ov (p / (cs - ov)), ?_, hbounds⟩
    rw [hplan, pbGenList_eq_map]
    exact List.mem_map_of_mem _ (List.mem_range.2 hk0lt)
  · by_cases hk0m : p / (cs - ov) < m
    · refine ⟨pbIv L cs ov (p / (cs - ov)), ?_, hbounds⟩
      rw [hplan]
      exact List.mem_append_left _ (List.mem_map_of_mem _ (List.mem_range.2 hk0m))
    · refine ⟨(m * (cs - ov), L), ?_, ?_, hp⟩
      · rw [hplan]
        exact List.mem_append_right _ (List.mem_singleton.2 rfl)
      · have : m * (cs - ov) ≤ p / (cs - ov) * (cs - ov) :=
          Nat.mul_le_mul_right _ (by omega)
        omega

/-- Coverage of the AugustusCGP plan. -/
theorem cgp_coverage (L cs ov : Nat) (hov : 0 < ov) (hcs : ov < cs)
    (p : Nat) (hp : p < L) :
    ∃ iv ∈ cgpPlanList L cs ov, iv.1 ≤ p ∧ p < iv.1 + iv.2 := by
  have hs : 0 < cs - ov := by omega
  obtain ⟨h1, h2⟩ := div_step_covers p (cs - ov) hs
  have hmul : (p / (cs - ov) + 1) * (cs - ov) = p / (cs - ov) * (cs - ov) + (cs - ov) :=
    Nat.succ_mul _ _
  have hk0lt : p / (cs - ov) < numStarts L (cs - ov) := by
    rw [numStarts_lt_iff hs]; omega
  refine ⟨cgpIv L cs ov (p / (cs - ov)), ?_, ?_, ?_⟩
  · rw [cgpPlanList_eq_map]
    exact List.mem_map_of_mem _ (List.mem_range.2 hk0lt)
  · simpa [cgpIv] using h1
  · simp only [cgpIv]
    by_cases hbr : p / (cs - ov) * (cs - ov) + cs ≤ L
    · rw [if_pos hbr]; omega
    · rw [if_neg hbr]; omega

/-- Every AugustusPB planned interval satisfies `start ≤ stop ≤ L`. -/
theorem pb_bounds (L cs ov : Nat) (hcs : ov < cs) :
    ∀ iv ∈ pbPlanList L cs ov, iv.1 ≤ iv.2 ∧ iv.2 ≤ L := by
  intro iv hiv
  have hs : 0 < cs - ov := by omega
  rcases pbPlanList_cases L cs ov hcs with hplan | ⟨m, hn, hc, hplan⟩
  · rw [hplan, pbGenList_eq_map] at hiv
    obtain ⟨k, hk, rfl⟩ := mem_map_range hiv
    have hkL : k * (cs - ov) < L := (numStarts_lt_iff hs).1 hk
    simp only [pbIv]
    omega
  · rw [hplan] at hiv
    rcases List.mem_append.1 hiv with hiv | hiv
    · obtain ⟨k, hk, rfl⟩ := mem_map_range hiv
      have hkn : k < numStarts L (cs - ov) := by omega
      have hkL : k * (cs - ov) < L := (numStarts_lt_iff hs).1 hkn
      simp only [pbIv]
      omega
    · have hmn : m < numStarts L (cs - ov) := by omega
      have hmL : m * (cs - ov) < L := (numStarts_lt_iff hs).1 hmn
      rw [List.mem_singleton.1 hiv]
      omega

/-- Every AugustusCGP planned interval satisfies `start + length ≤ L`. -/
theorem cgp_bounds (L cs ov : Nat) (hcs : ov < cs) :
    ∀ iv ∈ cgpPlanList L cs ov, iv.1 + iv.2 ≤ L := by
  intro iv hiv
  have hs : 0 < cs - ov := by omega
  rw [cgpPlanList_eq_map] at hiv
  obtain ⟨k, hk, rfl⟩ := mem_map_range hiv
  have hkL : k * (cs - ov) < L := (numStarts_lt_iff hs).1 hk
  simp only [cgpIv]
  by_cases hbr : k * (cs - ov) + cs ≤ L
  · rw [if_pos hbr]; omega
  · rw [if_neg hbr]; omega

/-! ## Claims about the chunk planner (C2, C3, C7, C10) -/

/-- Claim C3: for every sequence length `L` and `chunk_size > overlap > 0`,
the planned intervals cover every position of `[0, L)` with no gaps, each
interval satisfies `start + length ≤ L`, and consecutive generated intervals
have starts differing by exactly `chunk_size - overlap` (this holds in both
modes, with no exception needed even at the trailing-merge boundary). -/
theorem c3_plan_geometry (L cs ov : Nat) (hov : 0 < ov) (hcs : ov < cs) :
    (∀ p, p < L → ∃ iv ∈ pbPlanList L cs ov, iv.1 ≤ p ∧ p < iv.2) ∧
    (∀ iv ∈ pbPlanList L cs ov, iv.1 ≤ iv.2 ∧ iv.2 ≤ L) ∧
    (∀ p, p < L → ∃ iv ∈ cgpPlanList L cs ov, iv.1 ≤ p ∧ p < iv.1 + iv.2) ∧
    (∀ iv ∈ cgpPlanList L cs ov, iv.1 + iv.2 ≤ L) ∧
    (∀ i, ∀ h : i + 1 < (pbGenList L cs ov).length,
        ((pbGenList L cs ov).get ⟨i + 1, h⟩).1
          = ((pbGenList L cs ov).get ⟨i, Nat.lt_of_succ_lt h⟩).1 + (cs - ov)) ∧
    (∀ i, ∀ h : i + 1 < (cgpPlanList L cs ov).length,
        ((cgpPlanList L cs ov).get ⟨i + 1, h⟩).1
          = ((cgpPlanList L cs ov).get ⟨i, Nat.lt_of_succ_lt h⟩).1 + (cs - ov)) := by
  refine ⟨pb_coverage L cs ov hov hcs, pb_bounds L cs ov hcs,
          cgp_coverage L cs ov hov hcs, cgp_bounds L cs ov hcs, ?_, ?_⟩
  · intro i h
    rw [pbGen_get, pbGen_get]
    simp [pbIv, Nat.succ_mul]
  · intro i h
    rw [cgpPlan_get, cgpPlan_get]
    simp [cgpIv, Nat.succ_mul]

/-- Witness for C3 at the concrete input `L = 7`, `chunk_size = 4`,
`overlap = 1`. -/
theorem c3_plan_geometry_witness :
    (∀ p, p < 7 → ∃ iv ∈ pbPlanList 7 4 1, iv.1 ≤ p ∧ p < iv.2) ∧
    (∀ iv ∈ pbPlanList 7 4 1, iv.1 ≤ iv.2 ∧ iv.2 ≤ 7) ∧
    (∀ p, p < 7 → ∃ iv ∈ cgpPlanList 7 4 1, iv.1 ≤ p ∧ p < iv.1 + iv.2) ∧
    (∀ iv ∈ cgpPlanList 7 4 1, iv.1 + iv.2 ≤ 7) ∧
    (∀ i, ∀ h : i + 1 < (pbGenList 7 4 1).length,
        ((pbGenList 7 4 1).get ⟨i + 1, h⟩).1
          = ((pbGenList 7 4 1).get ⟨i, Nat.lt_of_succ_lt h⟩).1 + (4 - 1)) ∧
    (∀ i, ∀ h : i + 1 < (cgpPlanList 7 4 1).length,
        ((cgpPlanList 7 4 1).get ⟨i + 1, h⟩).1
          = ((cgpPlanList 7 4 1).get ⟨i, Nat.lt_of_succ_lt h⟩).1 + (4 - 1)) :=
  c3_plan_geometry 7 4 1 (by decide) (by decide)

/-- Counterexample to claim C2: in the alignment (AugustusCGP) mode the plan
for `L = 7`, `chunk_size = 4`, `overlap = 1` has three intervals whose last,
`(6, 1)`, is undersized (`2 * 1 ≤ 4`, i.e. length ≤ 0.5 · chunk_size) yet is
retained: the CGP `setup` has no trailing-merge step. -/
theorem c2_counterexample :
    cgpPlanList 7 4 1 = [(0, 4), (3, 4), (6, 1)] ∧
    2 ≤ (cgpPlanList 7 4 1).length ∧ 2 * 1 ≤ 4 := by decide

/-- Claim C2 (amended to the single-genome AugustusPB mode, the only mode
with a trailing merge): whenever the generated list decomposes as
`xs ++ [p, q]` (at least 2 intervals) and the last interval `q` has length at
most `0.5 * chunk_size`, the plan deletes `q` and extends the new last
interval's end to the sequence length `L` (which always equals `q`'s stop). -/
theorem c2_pb_trailing_merge (L cs ov : Nat) (hov : 0 < ov) (hcs : ov < cs)
    (xs : List (Nat × Nat)) (p q : Nat × Nat)
    (hgen : pbGenList L cs ov = xs ++ [p, q]) (hsmall : 2 * (q.2 - q.1) ≤ cs) :
    q.2 = L ∧ pbPlanList L cs ov = xs ++ [(p.1, L)] := by
  have hn : numStarts L (cs - ov) = xs.length + 2 := by
    have hlen := length_pbGenList L cs ov
    rw [hgen] at hlen
    simpa using hlen.symm
  have hdec := pbGenList_decomp (m := xs.length) hn
  obtain ⟨hxs, hpq⟩ := List.append_inj (hgen.symm.trans hdec) (by simp)
  obtain ⟨hp, hq⟩ : p = pbIv L cs ov xs.length ∧ q = pbIv L cs ov (xs.length + 1) := by
    simpa using hpq
  have hq2 : q.2 = L := by
    rw [hq]
    simpa [pbIv] using last_stop_eq hcs (by omega)
  refine ⟨hq2, ?_⟩
  unfold pbPlanList
  rw [hgen, trailingMerge_append, if_pos hsmall, hq2]

/-- Witness for the amended C2 at `L = 7`, `chunk_size = 4`, `overlap = 1`:
the generated list is `[(0,4), (3,7), (6,7)]`, the last interval has length
`1 ≤ 0.5 · 4`, and the plan is `[(0,4), (3,7)]`. -/
theorem c2_pb_trailing_merge_witness :
    ((6, 7) : Nat × Nat).2 = 7 ∧ pbPlanList 7 4 1 = [(0, 4)] ++ [(((3, 7) : Nat × Nat).1, 7)] :=
  c2_pb_trailing_merge 7 4 1 (by decide) (by decide) [(0, 4)] (3, 7) (6, 7)
    (by decide) (by decide)

/-- Counterexample to claim C7: `L = 5 < 6 = chunk_size` with
`overlap = 4` yields a plan with two AugustusPB intervals (and three
AugustusCGP intervals), not exactly one. -/
theorem c7_counterexample :
    (5 : Nat) < 6 ∧ (0 : Nat) < 4 ∧ (4 : Nat) < 6 ∧
    pbPlanList 5 6 4 = [(0, 5), (2, 5)] ∧ (pbPlanList 5 6 4).length ≠ 1 ∧
    (cgpPlanList 5 6 4).length ≠ 1 := by decide

/-- Claim C7 (amended): a sequence yields exactly one interval spanning
`[0, L)` when its length is at most the step `chunk_size - overlap` (not
merely less than `chunk_size`: a length in `(chunk_size - overlap,
chunk_size)` yields several starts). -/
theorem c7_short_sequence (L cs ov : Nat) (hov : 0 < ov) (hcs : ov < cs)
    (hL : 0 < L) (hle : L ≤ cs - ov) :
    pbPlanList L cs ov = [(0, L)] ∧ cgpPlanList L cs ov = [(0, L)] := by
  have hn : numStarts L (cs - ov) = 1 := numStarts_eq_one hL hle
  have hLcs : L < cs := by omega
  have hnle : ¬ cs ≤ L := by omega
  constructor
  · unfold pbPlanList
    rw [pbGenList_eq_map, hn, show List.range 1 = [0] from by decide, List.map_cons, List.map_nil]
    rw [trailingMerge_short _ _ (by simp)]
    simp [pbIv]
    omega
  · rw [cgpPlanList_eq_map, hn, show List.range 1 = [0] from by decide, List.map_cons, List.map_nil]
    simp [cgpIv, hnle]

/-- Witness for the amended C7 at `L = 2`, `chunk_size = 4`, `overlap = 1`. -/
theorem c7_short_sequence_witness :
    pbPlanList 2 4 1 = [(0, 2)] ∧ cgpPlanList 2 4 1 = [(0, 2)] :=
  c7_short_sequence 2 4 1 (by decide) (by decide) (by decide) (by decide)

/-- Counterexample to claim C10: with `chunk_size = 10`, `overlap = 8`
(overlap above half the chunk size) and `L = 20`, the AugustusPB plan
contains the full-size interval `(0, 10)` whose length `10` exceeds
`1.5 · chunk_size - overlap = 7` (in doubled integer form:
`2 · 10 > 3 · 10 - 2 · 8`). -/
theorem c10_counterexample :
    ((0, 10) : Nat × Nat) ∈ pbPlanList 20 10 8 ∧
    ¬ (2 * (((0, 10) : Nat × Nat).2 - ((0, 10) : Nat × Nat).1) ≤ 3 * 10 - 2 * 8) := by
  decide

/-- Claim C10 (amended): every AugustusPB planned interval has length at most
`max (chunk_size, 1.5 · chunk_size - overlap)` and strictly less than
`1.5 · chunk_size` (stated doubled to stay in `Nat`): unmerged intervals are
bounded by `chunk_size`, the merged tail by `1.5 · chunk_size - overlap`. -/
theorem c10_interval_length_bound (L cs ov : Nat) (hov : 0 < ov) (hcs : ov < cs) :
    ∀ iv ∈ pbPlanList L cs ov,
      2 * (iv.2 - iv.1) ≤ max (2 * cs) (3 * cs - 2 * ov) ∧
      2 * (iv.2 - iv.1) < 3 * cs := by
  intro iv hiv
  have hs : 0 < cs - ov := by omega
  have key2 : ∀ a : Nat, 2 * (min (a + cs) L - a) ≤ max (2 * cs) (3 * cs - 2 * ov) ∧
      2 * (min (a + cs) L - a) < 3 * cs := by
    intro a
    omega
  rcases pbPlanList_cases L cs ov hcs with hplan | ⟨m, hn, hc, hplan⟩
  · rw [hplan, pbGenList_eq_map] at hiv
    obtain ⟨k, hk, rfl⟩ := mem_map_range hiv
    simpa [pbIv] using key2 (k * (cs - ov))
  · rw [hplan] at hiv
    rcases List.mem_append.1 hiv with hiv | hiv
    · obtain ⟨k, hk, rfl⟩ := mem_map_range hiv
      simpa [pbIv] using key2 (k * (cs - ov))
    · rw [List.mem_singleton.1 hiv]
      have hmul : (m + 1) * (cs - ov) = m * (cs - ov) + (cs - ov) := Nat.succ_mul _ _
      have hmL : (m + 1) * (cs - ov) < L := (numStarts_lt_iff hs).1 (by omega)
      have key : ∀ a b : Nat, b = a + (cs - ov) → b < L → 2 * (L - b) ≤ cs →
          2 * (L - a) ≤ max (2 * cs) (3 * cs - 2 * ov) ∧ 2 * (L - a) < 3 * cs := by
        intro a b h1 h2 h3
        omega
      simpa using key (m * (cs - ov)) ((m + 1) * (cs - ov)) hmul hmL hc

/-- Witness for the amended C10 at `L = 20`, `chunk_size = 10`,
`overlap = 8`, interval `(0, 10)`. -/
theorem c10_interval_length_bound_witness :
    2 * (((0, 10) : Nat × Nat).2 - ((0, 10) : Nat × Nat).1) ≤ max (2 * 10) (3 * 10 - 2 * 8) ∧
    2 * (((0, 10) : Nat × Nat).2 - ((0, 10) : Nat × Nat).1) < 3 * 10 :=
  c10_interval_length_bound 20 10 8 (by decide) (by decide) (0, 10) (by decide)

/-! ## Claim C5: behaviour on invalid parameters

Neither `setup` validates `chunksize`/`overlap`.  The step passed to
`xrange` is `chunksize - overlap`; for `chunksize < overlap` the step is
negative and the loop body never runs, for `chunksize = overlap` Python's
`xrange` raises `ValueError`.  No `ConfigurationError` exists anywhere in
the source. -/

/-- Counterexample to claim C5: at `chunk_size = 1 ≤ 2 = overlap` both
planners return an empty plan (`Except.ok []`) instead of failing with
`ConfigurationError`. -/
theorem c5_counterexample :
    (1 : Nat) ≤ 2 ∧
    pbPlanChecked 10 1 2 = Except.ok [] ∧
    cgpPlanChecked 10 1 2 = Except.ok [] :=
  ⟨by decide, rfl, rfl⟩

/-- Claim C5 (amended): for `chunk_size < overlap` the planners silently
produce an empty plan; for `chunk_size = overlap` they fail with Python's
`ValueError` (zero `xrange` step); they never fail with
`ConfigurationError`. -/
theorem c5_invalid_parameters (L cs ov : Nat) :
    (cs < ov → pbPlanChecked L cs ov = Except.ok [] ∧
        cgpPlanChecked L cs ov = Except.ok []) ∧
    (cs = ov → pbPlanChecked L cs ov = Except.error PlanError.valueError ∧
        cgpPlanChecked L cs ov = Except.error PlanError.valueError) ∧
    pbPlanChecked L cs ov ≠ Except.error PlanError.configurationError ∧
    cgpPlanChecked L cs ov ≠ Except.error PlanError.configurationError := by
  refine ⟨?_, ?_, ?_, ?_⟩
  · intro h
    have h0 : ¬ ((cs : Int) - ov = 0) := by omega
    have hneg : (cs : Int) - ov < 0 := by omega
    constructor <;>
      simp [pbPlanChecked, cgpPlanChecked, xrangeFrom0, h0, hneg, trailingMerge,
        Except.map]
  · intro h
    have h0 : (cs : Int) - ov = 0 := by omega
    constructor <;> simp [pbPlanChecked, cgpPlanChecked, xrangeFrom0, h0, Except.map]
  · by_cases h0 : (cs : Int) - ov = 0
    · simp [pbPlanChecked, xrangeFrom0, h0, Except.map]
    · by_cases hneg : (cs : Int) - ov < 0 <;>
        simp [pbPlanChecked, xrangeFrom0, h0, hneg, Except.map]
  · by_cases h0 : (cs : Int) - ov = 0
    · simp [cgpPlanChecked, xrangeFrom0, h0, Except.map]
    · by_cases hneg : (cs : Int) - ov < 0 <;>
        simp [cgpPlanChecked, xrangeFrom0, h0, hneg, Except.map]

/-! ## Hint slicer (claim C4)

`augustus_pb_chunk` slices the hints file with
`awk '($1 == "{chrom}" && $4 >= {start} && $5 <= {stop}) {print $0}'`:
a pure, order-preserving filter keeping the records whose sequence column
equals the chunk's chromosome and whose feature interval is fully contained
in the chunk window. -/

/-- One extrinsic-evidence (hints gff) record: the columns the awk program
inspects (`$1` sequence, `$4` feature start, `$5` feature end) plus the rest
of the line, carried unchanged. -/
structure GffRecord where
  seqname : String
  featStart : Int
  featEnd : Int
  rest : String
deriving DecidableEq, Repr

/-- The awk filter of `augustus_pb.py:99`:
`$1 == chrom && $4 >= start && $5 <= stop`, printing matching records
unchanged and in order. -/
def sliceHints (seqId : String) (start stop : Int) (hints : List GffRecord) :
    List GffRecord :=
  hints.filter
    (fun r => r.seqname == seqId && decide (start ≤ r.featStart) &&
      decide (r.featEnd ≤ stop))

/-- Claim C4: the hint slicer is a pure, order-preserving filter: a record is
in the output iff it is in the input stream, its sequence column equals
`seqId`, its feature start is ≥ `start` and its feature end is ≤ `stop`;
the output is a sublist of the input (records are kept verbatim, never
clipped, and partially overlapping records are excluded). -/
theorem c4_hint_slicer (seqId : String) (a b : Int) (hints : List GffRecord)
    (r : GffRecord) :
    (r ∈ sliceHints seqId a b hints ↔
      r ∈ hints ∧ r.seqname = seqId ∧ a ≤ r.featStart ∧ r.featEnd ≤ b) ∧
    (sliceHints seqId a b hints).Sublist hints := by
  constructor
  · rw [sliceHints, List.mem_filter]
    simp [and_assoc]
  · exact List.filter_sublist hints

/-! ## Identifier rewriting (claim C9)

The merge pipes end in a `sed` global substitution of `jg` by `augPB-`
(AugustusPB, `augustus_pb.py:142`) respectively of `jg` by `augCGP-`
(AugustusCGP, `augustus_cgp.py:181`): every occurrence of `jg` — in
particular the leading `jg` of every transcript identifier `joingenes`
emits — is rewritten with the mode's fixed tag. -/

/-- The `sed` global substitution of `jg` by `rep` on one line:
left-to-right, non-overlapping replacement of the two-character pattern. -/
def sedJg (rep : List Char) : List Char → List Char
  | [] => []
  | [c] => [c]
  | c :: d :: ds =>
      if c = 'j' ∧ d = 'g' then rep ++ sedJg rep ds else c :: sedJg rep (d :: ds)

/-- Whether the pattern `jg` occurs in a line. -/
def hasJg : List Char → Bool
  | [] => false
  | [_] => false
  | c :: d :: ds => (c == 'j' && d == 'g') || hasJg (d :: ds)

/-- The pattern of both sed commands. -/
def jgTag : List Char := ['j', 'g']

/-- The AugustusPB replacement `augPB-` (`augustus_pb.py:142`). -/
def augPBTag : List Char := ['a', 'u', 'g', 'P', 'B', '-']

/-- The AugustusCGP replacement `augCGP-` (`augustus_cgp.py:181`). -/
def augCGPTag : List Char := ['a', 'u', 'g', 'C', 'G', 'P', '-']

theorem jgTag_eq_source : jgTag = "jg".toList := by decide

theorem augPBTag_eq_source : augPBTag = "augPB-".toList := by decide

theorem augCGPTag_eq_source : augCGPTag = "augCGP-".toList := by decide

/-- The AugustusPB identifier rewrite. -/
def pbRenameId (l : List Char) : List Char := sedJg augPBTag l

/-- The AugustusCGP identifier rewrite. -/
def cgpRenameId (l : List Char) : List Char := sedJg augCGPTag l

/-- The AugustusPB rewrite applied to one line of the merge output. -/
def pbRenameLine (s : String) : String := String.mk (sedJg augPBTag s.data)

/-- The AugustusCGP rewrite applied to one line of the merge output. -/
def cgpRenameLine (s : String) : String := String.mk (sedJg augCGPTag s.data)

theorem sedJg_of_no_jg (rep : List Char) : ∀ l, hasJg l = false → sedJg rep l = l := by
  intro l
  induction l with
  | nil => intro _; rfl
  | cons c cs ih =>
    intro h
    cases cs with
    | nil => rfl
    | cons d ds =>
      by_cases hjg : c = 'j' ∧ d = 'g'
      · simp [hasJg, hjg.1, hjg.2] at h
      · have h2 : hasJg (d :: ds) = false := by
          simp [hasJg] at h
          exact h.2
        simp [sedJg, hjg, ih h2]

theorem sedJg_jg_head (rep l : List Char) :
    sedJg rep ('j' :: 'g' :: l) = rep ++ sedJg rep l := by
  simp [sedJg]

theorem pb_tag_append_ne (rest t : List Char) : augPBTag ++ rest ≠ augCGPTag ++ t := by
  intro h
  simp only [augPBTag, augCGPTag, List.cons_append, List.nil_append] at h
  injection h with h1 h
  injection h with h2 h
  injection h with h3 h
  injection h with h4 h
  exact absurd h4 (by decide)

theorem cgp_tag_append_ne (rest t : List Char) : augCGPTag ++ rest ≠ augPBTag ++ t := by
  intro h
  simp only [augPBTag, augCGPTag, List.cons_append, List.nil_append] at h
  injection h with h1 h
  injection h with h2 h
  injection h with h3 h
  injection h with h4 h
  exact absurd h4 (by decide)

/-- Claim C9: the two modes rewrite `joingenes` transcript identifiers
(`jg` followed by a suffix in which `jg` does not occur again) with two
distinct fixed tags, and the rewritten identifiers never carry the other
mode's tag as a prefix: no identifier of one mode's merged output aliases
one of the other mode's. -/
theorem c9_identifier_prefixes (rest : List Char) (h : hasJg rest = false) :
    augPBTag ≠ augCGPTag ∧
    pbRenameId (jgTag ++ rest) = augPBTag ++ rest ∧
    cgpRenameId (jgTag ++ rest) = augCGPTag ++ rest ∧
    (∀ t : List Char, pbRenameId (jgTag ++ rest) ≠ augCGPTag ++ t) ∧
    (∀ t : List Char, cgpRenameId (jgTag ++ rest) ≠ augPBTag ++ t) := by
  have hpb : pbRenameId (jgTag ++ rest) = augPBTag ++ rest := by
    show sedJg augPBTag ('j' :: 'g' :: rest) = augPBTag ++ rest
    rw [sedJg_jg_head, sedJg_of_no_jg _ rest h]
  have hcgp : cgpRenameId (jgTag ++ rest) = augCGPTag ++ rest := by
    show sedJg augCGPTag ('j' :: 'g' :: rest) = augCGPTag ++ rest
    rw [sedJg_jg_head, sedJg_of_no_jg _ rest h]
  refine ⟨by decide, hpb, hcgp, ?_, ?_⟩
  · intro t
    rw [hpb]
    exact pb_tag_append_ne rest t
  · intro t
    rw [hcgp]
    exact cgp_tag_append_ne rest t

/-- Witness for C9 at the concrete `joingenes` identifier `jg1.t1`. -/
theorem c9_identifier_prefixes_witness :
    augPBTag ≠ augCGPTag ∧
    pbRenameId (jgTag ++ ['1', '.', 't', '1']) = augPBTag ++ ['1', '.', 't', '1'] ∧
    cgpRenameId (jgTag ++ ['1', '.', 't', '1']) = augCGPTag ++ ['1', '.', 't', '1'] ∧
    (∀ t : List Char, pbRenameId (jgTag ++ ['1', '.', 't', '1']) ≠ augCGPTag ++ t) ∧
    (∀ t : List Char, cgpRenameId (jgTag ++ ['1', '.', 't', '1']) ≠ augPBTag ++ t) :=
  c9_identifier_prefixes ['1', '.', 't', '1'] (by decide)

/-! ## Chunk merger and parent-assignment wiring (claims C1, C6, C8)

`join_genes` in both modes first concatenates all raw per-chunk feature sets
into one raw file (chunk-emission order), then pipes it through the external
`joingenes` binary, a `grep` structural-line filter and the mode's `sed`
rename.  AugustusCGP then hands the merged set to
`tools.parentGeneAssignment.assign_parents` as a follow-on job;
AugustusPB round-trips through `gtfToGenePred`/`genePredToGtf` and returns
file ids without any parent-assignment call.  External binaries are opaque
parameters returning `Except Unit` (`run_proc` raises on non-zero exit). -/

/-- The concatenation loop of `join_genes` (`augustus_cgp.py:169-174`,
`augustus_pb.py:130-135`): for every chunk in emission order, append all of
its lines to the raw file. -/
def rawConcat (chunks : List (List String)) : List String :=
  chunks.foldl (fun acc chunk => acc ++ chunk) []

/-- The result triple of `tools.parentGeneAssignment.assign_parents`:
(annotated feature set, dataframe of alternative parental transcripts, count
of discarded transcripts).  The subroutine lives outside the embedded
modules and is opaque here, exactly as in the spec's Parent Assignment
Interface; `δ` is the dataframe type. -/
structure APResult (δ : Type) where
  gtf : List String
  df : δ
  failCount : Nat

/-- Merge-step errors.  `emptyInput` is the spec's `EmptyInputError` (the
source never raises it); `externalToolFailed` models a non-zero exit of an
external binary in the pipe. -/
inductive JoinError
  | emptyInput
  | externalToolFailed
deriving DecidableEq, Repr

/-- `augustus_cgp.join_genes` (`augustus_cgp.py:157-188`): concatenate the
chunks into the raw file, run the external joingenes/grep/sed pipe, hand the
merged set to `assign_parents`, and return
`(raw_gtf_file_id, assign_parents result)`.  `ap` is the opaque
`assign_parents`, `joinBin` the `joingenes` binary, `grepP` the `grep -P`
structural-line filter.  The result's second component lists the argument of
every `assign_parents` invocation this call makes, making invocation counts
part of the embedding. -/
def cgpJoinGenes {δ : Type} (ap : List String → APResult δ)
    (joinBin : List String → Except Unit (List String)) (grepP : String → Bool)
    (chunks : List (List String)) :
    Except JoinError ((List String × APResult δ) × List (List String)) :=
  let raw := rawConcat chunks
  match joinBin raw with
  | Except.error _ => Except.error JoinError.externalToolFailed
  | Except.ok out =>
      let merged := (out.filter grepP).map cgpRenameLine
      Except.ok ((raw, ap merged), [merged])

/-- `augustus_pb.join_genes` (`augustus_pb.py:118-154`): concatenate the
chunks, run the joingenes/grep/sed pipe, round-trip through `gtfToGenePred`
and `genePredToGtf`, and return the three file ids
`(raw_gtf, joined_gtf, joined_gp)`.  The function contains no
parent-assignment call: its invocation list is empty. -/
def pbJoinGenes (joinBin gtfToGp gpToGtf : List String → Except Unit (List String))
    (grepP : String → Bool) (chunks : List (List String)) :
    Except JoinError ((List String × List String × List String) × List (List String)) :=
  let raw := rawConcat chunks
  match joinBin raw with
  | Except.error _ => Except.error JoinError.externalToolFailed
  | Except.ok out =>
      let joined := (out.filter grepP).map pbRenameLine
      match gtfToGp joined with
      | Except.error _ => Except.error JoinError.externalToolFailed
      | Except.ok gp =>
          match gpToGtf gp with
          | Except.error _ => Except.error JoinError.externalToolFailed
          | Except.ok final => Except.ok ((raw, final, gp), [])

/-- `augustus_cgp.merge_results` (`augustus_cgp.py:144-154`): one
`join_genes` child job per genome, fed that genome's gff chunk from every
alignment chunk. -/
def cgpMergeResults {δ : Type} (genomes : List String) (ap : List String → APResult δ)
    (joinBin : List String → Except Unit (List String)) (grepP : String → Bool)
    (gffChunks : List (String → List String)) :
    List (String × Except JoinError ((List String × APResult δ) × List (List String))) :=
  genomes.map (fun genome =>
    (genome, cgpJoinGenes ap joinBin grepP (gffChunks.map (fun d => d genome))))

theorem rawConcat_eq_flatten (chunks : List (List String)) :
    rawConcat chunks = chunks.flatten := by
  suffices h : ∀ acc : List String,
      chunks.foldl (fun a c => a ++ c) acc = acc ++ chunks.flatten by
    simpa [rawConcat] using h []
  induction chunks with
  | nil => intro acc; simp
  | cons c cs ih => intro acc; simp [ih]

/-- Claim C1 (code-bug evidence), evaluated on a concrete two-genome,
two-chunk run: every AugustusCGP genome's merge invokes `assign_parents`
exactly once (invocation-list length 1), while the AugustusPB `join_genes`
makes zero invocations — against the claim, and against `augustus_pb.py`'s
own docstring ("Calls out to the parental gene assignment pipeline") and its
result comment. -/
theorem c1_parent_assignment_calls :
    (cgpMergeResults (δ := Nat) ["g1", "g2"] (fun m => ⟨m, 0, 0⟩)
        (fun l => Except.ok l) (fun _ => true)
        [fun _ => ["a"], fun _ => ["b"]]).map
      (fun r => (r.1, r.2.map (fun out => out.2.length))) =
      [("g1", Except.ok 1), ("g2", Except.ok 1)] ∧
    (pbJoinGenes (fun l => Except.ok l) (fun l => Except.ok l) (fun l => Except.ok l)
        (fun _ => true) [["a"], ["b"]]).map (fun out => out.2.length) =
      Except.ok 0 :=
  ⟨rfl, rfl⟩

/-- Counterexample to claim C6: invoked with zero raw feature sets, both
merge functions succeed (producing an empty concatenation) instead of
failing with `EmptyInputError`. -/
theorem c6_counterexample :
    cgpJoinGenes (δ := Nat) (fun m => ⟨m, 0, 0⟩) (fun l => Except.ok l)
        (fun _ => true) [] = Except.ok (([], ⟨[], 0, 0⟩), [[]]) ∧
    pbJoinGenes (fun l => Except.ok l) (fun l => Except.ok l) (fun l => Except.ok l)
        (fun _ => true) [] = Except.ok (([], [], []), []) :=
  ⟨rfl, rfl⟩

/-- Claim C6 (amended): the chunk mergers of both modes never fail with
`EmptyInputError` — the source has no empty-input check — and the raw
concatenation of zero chunks is simply the empty file. -/
theorem c6_empty_input_no_error (δ : Type) (ap : List String → APResult δ)
    (joinBin gtfToGp gpToGtf : List String → Except Unit (List String))
    (grepP : String → Bool) (chunks : List (List String)) :
    cgpJoinGenes ap joinBin grepP chunks ≠ Except.error JoinError.emptyInput ∧
    pbJoinGenes joinBin gtfToGp gpToGtf grepP chunks ≠ Except.error JoinError.emptyInput ∧
    rawConcat [] = ([] : List String) := by
  refine ⟨?_, ?_, rfl⟩
  · rcases hjb : joinBin (rawConcat chunks) with e | out
    · simp [cgpJoinGenes, hjb]
    · simp [cgpJoinGenes, hjb]
  · rcases hjb : joinBin (rawConcat chunks) with e | out
    · simp [pbJoinGenes, hjb]
    · rcases hgp : gtfToGp ((out.filter grepP).map pbRenameLine) with e | gp
      · simp [pbJoinGenes, hjb, hgp]
      · rcases hgg : gpToGtf gp with e | fin
        · simp [pbJoinGenes, hjb, hgp, hgg]
        · simp [pbJoinGenes, hjb, hgp, hgg]

/-- Claim C8: the chunk mergers' concatenation step is deterministic (equal
chunk lists give byte-identical raw output) and complete: whenever a merge
succeeds, its raw concatenated output is exactly the flattening of the input
chunk lists — every line of every chunk, none dropped, none duplicated, in
chunk-emission order — in both modes. -/
theorem c8_concatenation (chunks chunks2 : List (List String)) (hsame : chunks = chunks2) :
    rawConcat chunks = chunks.flatten ∧
    rawConcat chunks = rawConcat chunks2 ∧
    (∀ (δ : Type) (ap : List String → APResult δ)
        (joinBin : List String → Except Unit (List String)) (grepP : String → Bool)
        (out : (List String × APResult δ) × List (List String)),
        cgpJoinGenes ap joinBin grepP chunks = Except.ok out →
          out.1.1 = chunks.flatten) ∧
    (∀ (joinBin gtfToGp gpToGtf : List String → Except Unit (List String))
        (grepP : String → Bool)
        (out : (List String × List String × List String) × List (List String)),
        pbJoinGenes joinBin gtfToGp gpToGtf grepP chunks = Except.ok out →
          out.1.1 = chunks.flatten) := by
  subst hsame
  refine ⟨rawConcat_eq_flatten chunks, rfl, ?_, ?_⟩
  · intro δ ap joinBin grepP out h
    rcases hjb : joinBin (rawConcat chunks) with e | o
    · simp [cgpJoinGenes, hjb] at h
    · simp only [cgpJoinGenes, hjb, Except.ok.injEq] at h
      rw [← h]
      exact rawConcat_eq_flatten chunks
  · intro joinBin gtfToGp gpToGtf grepP out h
    rcases hjb : joinBin (rawConcat chunks) with e | o
    · simp [pbJoinGenes, hjb] at h
    · rcases hgp : gtfToGp ((o.filter grepP).map pbRenameLine) with e | gp
      · simp [pbJoinGenes, hjb, hgp] at h
      · rcases hgg : gpToGtf gp with e | fin
        · simp [pbJoinGenes, hjb, hgp, hgg] at h
        · simp only [pbJoinGenes, hjb, hgp, hgg, Except.ok.injEq] at h
          rw [← h]
          exact rawConcat_eq_flatten chunks

/-- Witness for C8 at the concrete chunk list `[["a"], ["b", "c"]]`. -/
theorem c8_concatenation_witness :
    rawConcat [["a"], ["b", "c"]] = [["a"], ["b", "c"]].flatten ∧
    rawConcat [["a"], ["b", "c"]] = rawConcat [["a"], ["b", "c"]] ∧
    (∀ (δ : Type) (ap : List String → APResult δ)
        (joinBin : List String → Except Unit (List String)) (grepP : String → Bool)
        (out : (List String × APResult δ) × List (List String)),
        cgpJoinGenes ap joinBin grepP [["a"], ["b", "c"]] = Except.ok out →
          out.1.1 = [["a"], ["b", "c"]].flatten) ∧
    (∀ (joinBin gtfToGp gpToGtf : List String → Except Unit (List String))
        (grepP : String → Bool)
        (out : (List String × List String × List String) × List (List String)),
        pbJoinGenes joinBin gtfToGp gpToGtf grepP [["a"], ["b", "c"]] = Except.ok out →
          out.1.1 = [["a"], ["b", "c"]].flatten) :=
  c8_concatenation [["a"], ["b", "c"]] [["a"], ["b", "c"]] rfl
